import Mathlib

/-!
# Verification of the transactional concurrent radix tree (`src/RadixTree.hh`)

This file is a shallow embedding, in Lean 4, of the transactional radix tree
of the repository.  The tree structure and every operation (`get_value`,
`insert_nodes`, `put`, `get`, `remove`, `trans_get`, `trans_put`,
`trans_remove`, and the commit callbacks `check` / `install`) are translated
directly from `src/RadixTree.hh`.

The STO transaction-manager header (`Transaction.hh`) and the leaf cell header
(`versioned_value.hh`) are part of the repository's build but are not under
`src/`; the pieces of them that the tree uses (the `TransactionTid` version-bit
convention, `TransItem` flags / read / write storage, and the
`versioned_value_struct` cell) are modelled from the specification's
description (spec sections 3 and 6), as noted on each such definition.

Version words are 64-bit machine integers; they are modelled as `Nat` with
arithmetic reduced modulo `2 ^ 64` at the one place (adding
`increment_value`) where overflow can occur.  Single-bit mask operations
(`w | b`, `w & ~b`, `(w & b) != 0` for a power-of-two mask `b`) are modelled
by their arithmetic characterizations on the bit `b`, which agree with the
bitwise operations of the source.
-/

set_option autoImplicit false

namespace RadixSpec

/-- The modulus of 64-bit machine words (`TransactionTid::type` is a 64-bit
unsigned integer). -/
def wordMod : Nat := 2 ^ 64

/-- The operation `w | b` for a single-bit mask `b` (a power of two): sets that bit. -/
def orBit (w b : Nat) : Nat := if w / b % 2 = 1 then w else w + b

/-- The operation `w & ~b` for a single-bit mask `b` (a power of two): clears that bit. -/
def clearBit (w b : Nat) : Nat := if w / b % 2 = 1 then w - b else w

/-- The test `(w & b) != 0` for a single-bit mask `b` (a power of two). -/
def hasBit (w b : Nat) : Bool := w / b % 2 = 1

/- Modelled from the spec: the `TransactionTid` version-bit convention of
`Transaction.hh` (not under `src/`).  Spec section 3: "lock bit (bit 0)",
then the valid bit, the insert bit (`user_bit1`), and "the remaining high
bits" as the increment field, bumped by `increment_value` on every update. -/
namespace TransactionTid

/-- Bit 0: the exclusive mutation latch. -/
def lock_bit : Nat := 1

/-- Bit 1: when clear, the leaf is logically absent. -/
def valid_bit : Nat := 2

/-- Bit 2: the first user bit, mapped by the tree to its insert bit. -/
def user_bit1 : Nat := 4

/-- The lowest bit of the increment field. -/
def increment_value : Nat := 8

/-- Modelled from the spec: acquiring the version spin-lock leaves the word
with the lock bit set (sequential model: the acquisition succeeds at once). -/
def lock (w : Nat) : Nat := orBit w lock_bit

/-- Modelled from the spec: releasing the version lock clears the lock bit. -/
def unlock (w : Nat) : Nat := clearBit w lock_bit

/-- Modelled from the spec: `same_version` is version equality ignoring the
lock bit (bit 0). -/
def same_version (a b : Nat) : Bool := a / 2 == b / 2

end TransactionTid

/-- The constant `RadixTree::ver_insert_bit = TransactionTid::user_bit1`. -/
def ver_insert_bit : Nat := TransactionTid.user_bit1

/-- Modelled from the spec: `versioned_value_struct<V>` of
`versioned_value.hh` (not under `src/`) — a payload cell together with a
version word (spec section 3, "Leaf (versioned_value)"). -/
structure VersionedValue (V : Type) where
  version : Nat
  value : V
  deriving DecidableEq

/-- A tree node.  `RadixTree::tree_node` holds a version word and a
`fanout = 16`-slot child array whose entries are either empty (`none`),
interior nodes, or (at the last level) leaves; `leaf` is the
`versioned_value` reached below the last level.  The `parent` /
`parent_index` back-pointers are used only by the commented-out iterator and
are omitted (as the spec allows). -/
inductive RNode (V : Type) where
  | leaf (vv : VersionedValue V)
  | node (version : Nat) (children : List (Option (RNode V)))

/-- The fan-out `fanout = 1 << span` with `span = 4`. -/
def fanout : Nat := 16

/-- The root of a freshly constructed tree: `tree_node()` initializes
`version = TransactionTid::increment_value` and all children empty. -/
def emptyTree (V : Type) : RNode V :=
  .node TransactionTid.increment_value (List.replicate fanout none)

/-- Structural well-formedness at `d` remaining levels: interior nodes with
16 child slots above, leaves exactly at the bottom.  This is the invariant
the C++ maintains by construction (spec section 3, interior-node
invariants). -/
def wf {V : Type} : RNode V → Nat → Bool
  | .leaf _, 0 => true
  | .node _ cs, d + 1 =>
      cs.length == fanout &&
      cs.all (fun c => match c with
        | none => true
        | some c => wf c d)
  | _, _ => false

/-- The constant `DefaultKeyTransformer<uint64_t>::buf_size()` is `sizeof(uint64_t) * 2`. -/
def buf_size : Nat := 8 * 2

/-- The transformer `DefaultKeyTransformer<uint64_t>::transform`:
`buf[2*sizeof(key)-i-1] = (key >> (4*i)) & 0xf` for `i = 0 .. 15`, i.e. the
entry at position `j` is the `(15-j)`-th 4-bit group — most significant
nibble first. -/
def transform (key : Nat) : List Nat :=
  (List.range buf_size).map (fun j => key / 16 ^ (buf_size - 1 - j) % 16)

/-- Big-endian base-16 digits, as a recursion: the leading digit followed by
the digits of the remainder.  `transform` is proved equal to this below. -/
def digitsBE : Nat → Nat → List Nat
  | 0, _ => []
  | n + 1, k => (k / 16 ^ n) :: digitsBE n (k % 16 ^ n)

/-- Descent, `RadixTree::get_value`: descend the tree along the nibbles of the key.
If a child slot is empty, return the path (`.inl`) of the interior node whose
child was missing (the C++ returns the node pointer; a node is identified
here by the list of nibbles leading to it).  After all nibbles, return the
leaf (`.inr`).  `none` corresponds to descents the structural invariant rules
out (a leaf met early, or a node where a leaf is due). -/
def get_value {V : Type} : RNode V → List Nat → Option (List Nat ⊕ VersionedValue V)
  | .node _ cs, k :: rest =>
      match cs.getD k none with
      | none => some (.inl [])
      | some child =>
          match rest with
          | [] =>
              match child with
              | .leaf vv => some (.inr vv)
              | .node _ _ => none
          | _ :: _ =>
              (get_value child rest).map
                (fun r =>
                  match r with
                  | .inl p => .inl (k :: p)
                  | .inr vv => .inr vv)
  | _, _ => none

/-- The version word of the interior node at a path (reading
`node->version` through the pointer the path identifies). -/
def nodeVersionAt {V : Type} : RNode V → List Nat → Option Nat
  | .node v _, [] => some v
  | .node _ cs, k :: p =>
      match cs.getD k none with
      | some c => nodeVersionAt c p
      | none => none
  | .leaf _, _ => none

/-- The leaf at a full path, if present. -/
def leafAt {V : Type} : RNode V → List Nat → Option (VersionedValue V)
  | .leaf vv, [] => some vv
  | .node _ cs, k :: p =>
      match cs.getD k none with
      | some c => leafAt c p
      | none => none
  | _, _ => none

/-- Apply `f` to the leaf at the given path (the functional rendering of
mutating a leaf through the pointer `insert_nodes` / `get_value` returned). -/
def updateLeaf {V : Type} : RNode V → List Nat → (VersionedValue V → VersionedValue V) → RNode V
  | .leaf vv, [], f => .leaf (f vv)
  | .node v cs, k :: p, f =>
      match cs.getD k none with
      | some c => .node v (cs.set k (some (updateLeaf c p f)))
      | none => .node v cs
  | t, _, _ => t

/-- The version bump `insert_nodes` performs on a node whose empty child slot
it fills: `lock(node->version)`, `set_version(node->version,
node->version + increment_value)` (64-bit addition), `unlock`. -/
def bump_ver (v : Nat) : Nat :=
  TransactionTid.unlock ((TransactionTid.lock v + TransactionTid.increment_value) % wordMod)

/-- Insert-path growth, `RadixTree::insert_nodes`: descend along the key; whenever a child slot
is empty, build the missing child (an interior node initialized to
`increment_value`, or, at the last level, a leaf whose version is
`ver_insert_bit` only), bump the current node's version under its lock, and
publish the child.  In this sequential model the re-check under the lock
always still finds the slot empty, so the publication always happens. -/
def insert_nodes {V : Type} [Inhabited V] : RNode V → List Nat → RNode V
  | .node v cs, k :: rest =>
      match cs.getD k none with
      | some child =>
          match rest with
          | [] => .node v cs
          | _ :: _ => .node v (cs.set k (some (insert_nodes child rest)))
      | none =>
          let newChild : RNode V :=
            match rest with
            | [] => .leaf ⟨ver_insert_bit, default⟩
            | _ :: _ => insert_nodes (.node TransactionTid.increment_value (List.replicate fanout none)) rest
          .node (bump_ver v) (cs.set k (some newChild))
  | t, _ => t

/-- Snapshot read, `RadixTree::atomic_read`: the snapshot-retry loop.  With no concurrent
writer the first iteration's two version reads agree, so the loop returns the
value together with the (unchanged) version word. -/
def atomic_read {V : Type} (vv : VersionedValue V) : V × Nat :=
  (vv.value, vv.version)

/-- The version word produced by the non-transactional `put` on a leaf:
lock; `ver = version + increment_value` (64-bit); `ver |= valid_bit`;
`ver &= ~ver_insert_bit`; store; unlock. -/
def put_ver (w : Nat) : Nat :=
  TransactionTid.unlock
    (clearBit
      (orBit ((TransactionTid.lock w + TransactionTid.increment_value) % wordMod)
        TransactionTid.valid_bit)
      ver_insert_bit)

/-- The effect of the non-transactional `put` on the leaf cell. -/
def putLeaf {V : Type} (vv : VersionedValue V) (v : V) : VersionedValue V :=
  ⟨put_ver vv.version, v⟩

/-- The version word produced by the non-transactional `remove` on a leaf:
lock; `ver = version + increment_value` (64-bit);
`ver &= ~(valid_bit | ver_insert_bit)`; store; unlock. -/
def remove_ver (w : Nat) : Nat :=
  TransactionTid.unlock
    (clearBit
      (clearBit ((TransactionTid.lock w + TransactionTid.increment_value) % wordMod)
        TransactionTid.valid_bit)
      ver_insert_bit)

/-- The effect of the non-transactional `remove` on the leaf cell (the
payload is not touched). -/
def removeLeaf {V : Type} (vv : VersionedValue V) : VersionedValue V :=
  ⟨remove_ver vv.version, vv.value⟩

/-- Non-transactional `RadixTree::put`: `insert_nodes`, then mutate the returned leaf (the
leaf at the key's full path) under its lock. -/
def put {V : Type} [Inhabited V] (t : RNode V) (key : List Nat) (v : V) : RNode V :=
  updateLeaf (insert_nodes t key) key (fun vv => putLeaf vv v)

/-- Non-transactional `RadixTree::get`: descend; not found or valid bit clear gives `false`
(here `none`); otherwise return the atomically read payload. -/
def get {V : Type} (t : RNode V) (key : List Nat) : Option V :=
  match get_value t key with
  | some (.inr vv) =>
      if hasBit vv.version TransactionTid.valid_bit then some (atomic_read vv).1
      else none
  | _ => none

/-- Non-transactional `RadixTree::remove`: descend; if no leaf, no-op; otherwise clear the
valid and insert bits under the leaf lock.  Memory is not reclaimed. -/
def remove {V : Type} (t : RNode V) (key : List Nat) : RNode V :=
  match get_value t key with
  | some (.inr _) => updateLeaf t key removeLeaf
  | _ => t

/-- The key of a per-transaction item: `Sto::item(this, ptr)` is keyed by a
pointer that is either an interior node (for `empty_bit` observations) or a
leaf.  Pointers are identified by the nibble path that reaches them. -/
inductive ItemKey where
  | nodeKey (p : List Nat)
  | leafKey (p : List Nat)
  deriving DecidableEq

/-- The tree's three user flag bits on items:
`item_put_bit`, `item_remove_bit`, `item_empty_bit`
(`TransItem::user0_bit << 0 / 1 / 2`). -/
structure ItemFlags where
  put : Bool
  rm : Bool
  empty : Bool
  deriving DecidableEq

/-- Modelled from the spec: the state a `TransItem` of `Transaction.hh` (not
under `src/`) carries for the tree — flag bits, the recorded read version,
and the staged write.  A staged write is either a put payload (`.inl v`) or
the boolean remove marker staged by `trans_remove` (`.inr true`). -/
structure ItemData (V : Type) where
  flags : ItemFlags
  read : Option Nat
  write : Option (V ⊕ Bool)
  deriving DecidableEq

/-- A fresh item, before any read, write or flag is recorded on it. -/
def freshItem (V : Type) : ItemData V := ⟨⟨false, false, false⟩, none, none⟩

/-- The per-transaction item table: `Sto::item(this, key)` returns the same
handle for the same key within one transaction. -/
def TxState (V : Type) : Type := List (ItemKey × ItemData V)

/-- A transaction that has not touched the tree yet. -/
def emptyTx (V : Type) : TxState V := []

/-- Look an item up in the transaction's table. -/
def txFind {V : Type} : TxState V → ItemKey → Option (ItemData V)
  | [], _ => none
  | e :: rest, k => if e.1 = k then some e.2 else txFind rest k

/-- Item lookup, `Sto::item(this, ptr)`: the existing handle, or a fresh one. -/
def stoItem {V : Type} (tx : TxState V) (k : ItemKey) : ItemData V :=
  (txFind tx k).getD (freshItem V)

/-- Store an item back under its key (the handle is mutated in place in the
C++; here the table entry is replaced, or appended if new). -/
def txUpsert {V : Type} : TxState V → ItemKey → ItemData V → TxState V
  | [], k, d => [(k, d)]
  | e :: rest, k, d => if e.1 = k then (k, d) :: rest else e :: txUpsert rest k d

/-- The result of `trans_get`: either `Sto::abort()` was called, or the
function returned `ret` with the out-parameter set to `out` (`none` when the
not-found path leaves it unassigned).  An assigned out-parameter is either a
proper payload (`.inl`) or a staged remove marker read back as the payload
(`.inr`). -/
inductive TResult (V : Type) where
  | abort
  | ok (ret : Bool) (out : Option (V ⊕ Bool))
  deriving DecidableEq

/-- Transactional read, `RadixTree::trans_get`.  Not found: record the missed interior node's
version in an item flagged `item_empty_bit` and return `false`.  Found with
a staged write in this transaction: return the staged write directly.
Otherwise: abort if the version moved since a previously recorded read;
else atomically read, record the version as a read, and report presence by
the valid bit. -/
def trans_get {V : Type} (t : RNode V) (tx : TxState V) (key : List Nat) :
    TxState V × TResult V :=
  match get_value t key with
  | some (.inl p) =>
      let it := stoItem tx (.nodeKey p)
      let it := { it with
        read := some ((nodeVersionAt t p).getD 0),
        flags := { it.flags with empty := true } }
      (txUpsert tx (.nodeKey p) it, .ok false none)
  | some (.inr vv) =>
      let it := stoItem tx (.leafKey key)
      match it.write with
      | some wv => (tx, .ok true (some wv))
      | none =>
          let ver := vv.version
          if it.read.isSome && !(TransactionTid.same_version (it.read.getD 0) ver) then
            (tx, .abort)
          else
            let value := (atomic_read vv).1
            let it := { it with read := some ver }
            (txUpsert tx (.leafKey key) it,
             .ok (hasBit ver TransactionTid.valid_bit) (some (.inl value)))
  | none => (tx, .ok false none)

/-- Transactional write, `RadixTree::trans_put`: `insert_nodes`, then stage the value as the
item's write and set `item_put_bit`. -/
def trans_put {V : Type} [Inhabited V] (t : RNode V) (tx : TxState V) (key : List Nat) (v : V) :
    RNode V × TxState V :=
  let t' := insert_nodes t key
  let it := stoItem tx (.leafKey key)
  let it := { it with
    write := some (.inl v),
    flags := { it.flags with put := true } }
  (t', txUpsert tx (.leafKey key) it)

/-- Transactional remove, `RadixTree::trans_remove`.  Not found: record the missed interior node's
version in an item flagged `item_empty_bit` (remove of an absent key is a
read).  Found: stage the boolean marker `true` as the item's write and set
`item_remove_bit`. -/
def trans_remove {V : Type} (t : RNode V) (tx : TxState V) (key : List Nat) : TxState V :=
  match get_value t key with
  | some (.inl p) =>
      let it := stoItem tx (.nodeKey p)
      let it := { it with
        read := some ((nodeVersionAt t p).getD 0),
        flags := { it.flags with empty := true } }
      txUpsert tx (.nodeKey p) it
  | some (.inr _) =>
      let it := stoItem tx (.leafKey key)
      let it := { it with
        write := some (.inr true),
        flags := { it.flags with rm := true } }
      txUpsert tx (.leafKey key) it
  | none => tx

/-- Commit callback `RadixTree::check`: for an `item_empty_bit` item, compare the interior
node's current version with the recorded read; otherwise compare the leaf's
current version with the recorded read — both modulo the lock bit
(`same_version`).  A key of the wrong kind for the flag never arises in the
C++ (the pointer cast would be meaningless) and yields `false` here. -/
def check {V : Type} (t : RNode V) (k : ItemKey) (d : ItemData V) : Bool :=
  if d.flags.empty then
    match k with
    | .nodeKey p =>
        match nodeVersionAt t p with
        | some w => TransactionTid.same_version w (d.read.getD 0)
        | none => false
    | .leafKey _ => false
  else
    match k with
    | .leafKey p =>
        match leafAt t p with
        | some vv => TransactionTid.same_version vv.version (d.read.getD 0)
        | none => false
    | .nodeKey _ => false

/-- Reading `item.write_value<V>()` as used in `install`'s put branch: the staged
write of a put item is always a payload (`.inl`); reading anything else
through the cast is unspecified and modelled by `default`. -/
def writeValueV {V : Type} [Inhabited V] (w : Option (V ⊕ Bool)) : V :=
  match w with
  | some (.inl v) => v
  | _ => default

/-- The version word `install` publishes:
`new_ver = version + increment_value` (64-bit, computed on the locked word);
with `item_put_bit`, `new_ver |= valid_bit; new_ver &= ~ver_insert_bit`;
else with `item_remove_bit`, `new_ver &= ~valid_bit; new_ver &=
~ver_insert_bit`. -/
def install_ver (w : Nat) (fl : ItemFlags) : Nat :=
  let new_ver := (w + TransactionTid.increment_value) % wordMod
  if fl.put then clearBit (orBit new_ver TransactionTid.valid_bit) ver_insert_bit
  else if fl.rm then clearBit (clearBit new_ver TransactionTid.valid_bit) ver_insert_bit
  else new_ver

/-- Commit callback `RadixTree::install` on the leaf the item points at: compute the new
version, write the staged payload on the put branch, and publish the new
version with `set_version`. -/
def install {V : Type} [Inhabited V] (vv : VersionedValue V) (d : ItemData V) :
    VersionedValue V :=
  ⟨install_ver vv.version d.flags,
   if d.flags.put then writeValueV d.write else vv.value⟩

/-- The committed effect of a `trans_put(key, v)` transaction on the tree:
the structural work (`insert_nodes`) happened at `trans_put` time; at commit
the manager runs `lock`, `install` and `unlock` on the leaf item. -/
def commit_put {V : Type} [Inhabited V] (t : RNode V) (key : List Nat) (v : V) : RNode V :=
  updateLeaf (insert_nodes t key) key (fun vv =>
    let locked : VersionedValue V := ⟨TransactionTid.lock vv.version, vv.value⟩
    let installed := install locked ⟨⟨true, false, false⟩, none, some (.inl v)⟩
    ⟨TransactionTid.unlock installed.version, installed.value⟩)

/-- The operations that touch a leaf's version word over its lifetime:
non-transactional `put` and `remove`, and a transactional commit on the leaf
(the manager's `lock`, then `install` with the item's flags and staged
write, then `unlock`). -/
inductive LeafOp (V : Type) where
  | putOp (v : V)
  | removeOp
  | commitOp (fl : ItemFlags) (w : Option (V ⊕ Bool))

/-- One leaf operation applied to the leaf cell. -/
def leafStep {V : Type} [Inhabited V] (vv : VersionedValue V) : LeafOp V → VersionedValue V
  | .putOp v => putLeaf vv v
  | .removeOp => removeLeaf vv
  | .commitOp fl w =>
      let locked : VersionedValue V := ⟨TransactionTid.lock vv.version, vv.value⟩
      let installed := install locked ⟨fl, none, w⟩
      ⟨TransactionTid.unlock installed.version, installed.value⟩

/-- The leaf as `insert_nodes` creates it: version `ver_insert_bit` only
(lock clear, valid clear, increment field zero). -/
def newLeaf (V : Type) [Inhabited V] : VersionedValue V := ⟨ver_insert_bit, default⟩

/-! ## Arithmetic facts about the version-word operations -/

theorem put_ver_valid (w : Nat) : hasBit (put_ver w) TransactionTid.valid_bit = true := by
  simp only [put_ver, orBit, clearBit, hasBit, TransactionTid.lock, TransactionTid.unlock,
    TransactionTid.increment_value, TransactionTid.valid_bit, ver_insert_bit,
    TransactionTid.user_bit1, TransactionTid.lock_bit, wordMod, decide_eq_true_eq,
    Nat.reducePow]
  split_ifs <;> omega

theorem put_ver_insert (w : Nat) : hasBit (put_ver w) ver_insert_bit = false := by
  simp only [put_ver, orBit, clearBit, hasBit, TransactionTid.lock, TransactionTid.unlock,
    TransactionTid.increment_value, TransactionTid.valid_bit, ver_insert_bit,
    TransactionTid.user_bit1, TransactionTid.lock_bit, wordMod, decide_eq_false_iff_not,
    Nat.reducePow]
  split_ifs <;> omega

theorem remove_ver_valid (w : Nat) : hasBit (remove_ver w) TransactionTid.valid_bit = false := by
  simp only [remove_ver, orBit, clearBit, hasBit, TransactionTid.lock, TransactionTid.unlock,
    TransactionTid.increment_value, TransactionTid.valid_bit, ver_insert_bit,
    TransactionTid.user_bit1, TransactionTid.lock_bit, wordMod, decide_eq_false_iff_not,
    Nat.reducePow]
  split_ifs <;> omega

theorem remove_ver_insert (w : Nat) : hasBit (remove_ver w) ver_insert_bit = false := by
  simp only [remove_ver, orBit, clearBit, hasBit, TransactionTid.lock, TransactionTid.unlock,
    TransactionTid.increment_value, TransactionTid.valid_bit, ver_insert_bit,
    TransactionTid.user_bit1, TransactionTid.lock_bit, wordMod, decide_eq_false_iff_not,
    Nat.reducePow]
  split_ifs <;> omega

/-- The version bump an inserter performs on an interior node changes the
version even modulo the lock bit: a validator comparing with `same_version`
always sees the difference. -/
theorem bump_ver_not_same (w : Nat) :
    TransactionTid.same_version (bump_ver w) w = false := by
  simp only [bump_ver, TransactionTid.same_version, TransactionTid.lock, TransactionTid.unlock,
    orBit, clearBit, TransactionTid.increment_value, TransactionTid.lock_bit, wordMod,
    beq_eq_false_iff_ne, ne_eq, Nat.reducePow]
  split_ifs <;> omega

/-! ## List helpers for the 16-way child arrays -/

theorem getD_set_self {α : Type} :
    ∀ (l : List α) (n : Nat) (a d : α), n < l.length → (l.set n a).getD n d = a
  | _ :: _, 0, _, _, _ => rfl
  | x :: l, n + 1, a, d, h => by
      rw [List.set_cons_succ, List.getD_cons_succ]
      exact getD_set_self l n a d (Nat.lt_of_succ_lt_succ h)
  | [], n, a, d, h => by simp at h

theorem getD_set_ne {α : Type} :
    ∀ (l : List α) (n m : Nat) (a d : α), n ≠ m → (l.set n a).getD m d = l.getD m d
  | [], _, _, _, _, _ => rfl
  | _ :: _, 0, 0, _, _, h => absurd rfl h
  | _ :: _, 0, _ + 1, _, _, _ => by rw [List.set_cons_zero, List.getD_cons_succ, List.getD_cons_succ]
  | _ :: _, _ + 1, 0, _, _, _ => by rw [List.set_cons_succ, List.getD_cons_zero, List.getD_cons_zero]
  | x :: l, n + 1, m + 1, a, d, h => by
      rw [List.set_cons_succ, List.getD_cons_succ, List.getD_cons_succ]
      exact getD_set_ne l n m a d (fun hn => h (congrArg Nat.succ hn))

theorem lt_length_of_getD_some {α : Type} :
    ∀ (l : List (Option α)) (n : Nat) (c : α), l.getD n none = some c → n < l.length
  | [], n, c, h => by simp [List.getD] at h
  | _ :: _, 0, _, _ => by simp
  | _ :: l, n + 1, c, h => by
      rw [List.getD_cons_succ] at h
      exact Nat.succ_lt_succ (lt_length_of_getD_some l n c h)

theorem mem_of_getD_some {α : Type} :
    ∀ (l : List (Option α)) (n : Nat) (c : α), l.getD n none = some c → some c ∈ l
  | [], n, c, h => by simp [List.getD] at h
  | x :: l, 0, c, h => by rw [List.getD_cons_zero] at h; exact h ▸ List.mem_cons_self x l
  | x :: l, n + 1, c, h => by
      rw [List.getD_cons_succ] at h
      exact List.mem_cons_of_mem x (mem_of_getD_some l n c h)

theorem getD_replicate_none {α : Type} :
    ∀ (m k : Nat), (List.replicate m (none : Option α)).getD k none = none
  | 0, _ => rfl
  | _ + 1, 0 => rfl
  | m + 1, k + 1 => by
      rw [List.replicate_succ, List.getD_cons_succ]
      exact getD_replicate_none m k

/-! ## One-step equations for the recursive tree functions -/

theorem get_value_eq {V : Type} (v : Nat) (cs : List (Option (RNode V))) (k : Nat)
    (rest : List Nat) :
    get_value (RNode.node v cs) (k :: rest) =
      (match cs.getD k none with
      | none => some (.inl [])
      | some child =>
          match rest with
          | [] =>
              match child with
              | .leaf vv => some (.inr vv)
              | .node _ _ => none
          | _ :: _ =>
              (get_value child rest).map
                (fun r =>
                  match r with
                  | .inl p => .inl (k :: p)
                  | .inr vv => .inr vv)) := rfl

theorem gv_leafTree {V : Type} (vv : VersionedValue V) (key : List Nat) :
    get_value (RNode.leaf vv) key = none := by cases key <;> rfl

theorem gv_nil {V : Type} (t : RNode V) : get_value t [] = none := by cases t <;> rfl

theorem gv_miss {V : Type} (v : Nat) (cs : List (Option (RNode V))) (k : Nat) (rest : List Nat)
    (hc : cs.getD k none = none) :
    get_value (RNode.node v cs) (k :: rest) = some (.inl []) := by
  rw [get_value_eq, hc]

theorem gv_leaf {V : Type} (v : Nat) (cs : List (Option (RNode V))) (k : Nat)
    (vv : VersionedValue V) (hc : cs.getD k none = some (.leaf vv)) :
    get_value (RNode.node v cs) [k] = some (.inr vv) := by
  rw [get_value_eq, hc]

theorem gv_nodeEnd {V : Type} (v : Nat) (cs : List (Option (RNode V))) (k : Nat)
    (v' : Nat) (cs' : List (Option (RNode V))) (hc : cs.getD k none = some (.node v' cs')) :
    get_value (RNode.node v cs) [k] = none := by
  rw [get_value_eq, hc]

theorem gv_cons {V : Type} (v : Nat) (cs : List (Option (RNode V))) (k : Nat)
    (child : RNode V) (r : Nat) (rs : List Nat) (hc : cs.getD k none = some child) :
    get_value (RNode.node v cs) (k :: r :: rs) =
      (get_value child (r :: rs)).map
        (fun x =>
          match x with
          | .inl p => .inl (k :: p)
          | .inr vv => .inr vv) := by
  rw [get_value_eq, hc]

theorem insert_nodes_eq {V : Type} [Inhabited V] (v : Nat) (cs : List (Option (RNode V)))
    (k : Nat) (rest : List Nat) :
    insert_nodes (RNode.node v cs) (k :: rest) =
      (match cs.getD k none with
      | some child =>
          match rest with
          | [] => .node v cs
          | _ :: _ => .node v (cs.set k (some (insert_nodes child rest)))
      | none =>
          .node (bump_ver v)
            (cs.set k (some
              (match rest with
              | [] => .leaf ⟨ver_insert_bit, default⟩
              | _ :: _ =>
                  insert_nodes
                    (.node TransactionTid.increment_value (List.replicate fanout none))
                    rest)))) := rfl

theorem in_hit_nil {V : Type} [Inhabited V] (v : Nat) (cs : List (Option (RNode V))) (k : Nat)
    (child : RNode V) (hc : cs.getD k none = some child) :
    insert_nodes (RNode.node v cs) [k] = .node v cs := by
  rw [insert_nodes_eq, hc]

theorem in_hit_cons {V : Type} [Inhabited V] (v : Nat) (cs : List (Option (RNode V))) (k : Nat)
    (child : RNode V) (r : Nat) (rs : List Nat) (hc : cs.getD k none = some child) :
    insert_nodes (RNode.node v cs) (k :: r :: rs) =
      .node v (cs.set k (some (insert_nodes child (r :: rs)))) := by
  rw [insert_nodes_eq, hc]

theorem in_miss_nil {V : Type} [Inhabited V] (v : Nat) (cs : List (Option (RNode V))) (k : Nat)
    (hc : cs.getD k none = none) :
    insert_nodes (RNode.node v cs) [k] =
      .node (bump_ver v) (cs.set k (some (.leaf ⟨ver_insert_bit, default⟩))) := by
  rw [insert_nodes_eq, hc]

theorem in_miss_cons {V : Type} [Inhabited V] (v : Nat) (cs : List (Option (RNode V))) (k : Nat)
    (r : Nat) (rs : List Nat) (hc : cs.getD k none = none) :
    insert_nodes (RNode.node v cs) (k :: r :: rs) =
      .node (bump_ver v)
        (cs.set k (some
          (insert_nodes (.node TransactionTid.increment_value (List.replicate fanout none))
            (r :: rs)))) := by
  rw [insert_nodes_eq, hc]

theorem updateLeaf_eq {V : Type} (v : Nat) (cs : List (Option (RNode V))) (k : Nat)
    (p : List Nat) (f : VersionedValue V → VersionedValue V) :
    updateLeaf (RNode.node v cs) (k :: p) f =
      (match cs.getD k none with
      | some c => .node v (cs.set k (some (updateLeaf c p f)))
      | none => .node v cs) := rfl

theorem ul_hit {V : Type} (v : Nat) (cs : List (Option (RNode V))) (k : Nat) (p : List Nat)
    (c : RNode V) (f : VersionedValue V → VersionedValue V) (hc : cs.getD k none = some c) :
    updateLeaf (RNode.node v cs) (k :: p) f = .node v (cs.set k (some (updateLeaf c p f))) := by
  rw [updateLeaf_eq, hc]

theorem ul_miss {V : Type} (v : Nat) (cs : List (Option (RNode V))) (k : Nat) (p : List Nat)
    (f : VersionedValue V → VersionedValue V) (hc : cs.getD k none = none) :
    updateLeaf (RNode.node v cs) (k :: p) f = .node v cs := by
  rw [updateLeaf_eq, hc]

theorem ul_leaf_nil {V : Type} (vv : VersionedValue V) (f : VersionedValue V → VersionedValue V) :
    updateLeaf (RNode.leaf vv) [] f = .leaf (f vv) := rfl

theorem ul_leaf_cons {V : Type} (vv : VersionedValue V) (k : Nat) (p : List Nat)
    (f : VersionedValue V → VersionedValue V) :
    updateLeaf (RNode.leaf vv) (k :: p) f = .leaf vv := rfl

theorem ul_node_nil {V : Type} (v : Nat) (cs : List (Option (RNode V)))
    (f : VersionedValue V → VersionedValue V) :
    updateLeaf (RNode.node v cs) [] f = .node v cs := rfl

theorem nv_node_nil {V : Type} (v : Nat) (cs : List (Option (RNode V))) :
    nodeVersionAt (RNode.node v cs) [] = some v := rfl

theorem nv_eq {V : Type} (v : Nat) (cs : List (Option (RNode V))) (k : Nat) (p : List Nat) :
    nodeVersionAt (RNode.node v cs) (k :: p) =
      (match cs.getD k none with
      | some c => nodeVersionAt c p
      | none => none) := rfl

theorem nv_hit {V : Type} (v : Nat) (cs : List (Option (RNode V))) (k : Nat) (p : List Nat)
    (c : RNode V) (hc : cs.getD k none = some c) :
    nodeVersionAt (RNode.node v cs) (k :: p) = nodeVersionAt c p := by
  rw [nv_eq, hc]

theorem nv_leaf {V : Type} (vv : VersionedValue V) (p : List Nat) :
    nodeVersionAt (RNode.leaf vv) p = none := by cases p <;> rfl

theorem la_eq {V : Type} (v : Nat) (cs : List (Option (RNode V))) (k : Nat) (p : List Nat) :
    leafAt (RNode.node v cs) (k :: p) =
      (match cs.getD k none with
      | some c => leafAt c p
      | none => none) := rfl

theorem la_leaf_nil {V : Type} (vv : VersionedValue V) : leafAt (RNode.leaf vv) [] = some vv := rfl

theorem la_node_nil {V : Type} (v : Nat) (cs : List (Option (RNode V))) :
    leafAt (RNode.node v cs) [] = none := rfl

theorem la_leaf_cons {V : Type} (vv : VersionedValue V) (k : Nat) (p : List Nat) :
    leafAt (RNode.leaf vv) (k :: p) = none := rfl

/-! ## Well-formedness helpers -/

theorem wf_children {V : Type} {v : Nat} {cs : List (Option (RNode V))} {d : Nat}
    (h : wf (RNode.node v cs) (d + 1) = true) :
    cs.length = fanout ∧ ∀ c : RNode V, some c ∈ cs → wf c d = true := by
  simp only [wf, Bool.and_eq_true, beq_iff_eq, List.all_eq_true] at h
  exact ⟨h.1, fun c hc => by simpa using h.2 _ hc⟩

theorem wf_leaf_zero {V : Type} {t : RNode V} (h : wf t 0 = true) :
    ∃ vv, t = RNode.leaf vv := by
  match t with
  | .leaf vv => exact ⟨vv, rfl⟩
  | .node v cs => simp [wf] at h

theorem wf_fresh {V : Type} (d : Nat) :
    wf (RNode.node TransactionTid.increment_value
      (List.replicate fanout (none : Option (RNode V)))) (d + 1) = true := by
  simp only [wf, Bool.and_eq_true, beq_iff_eq, List.all_eq_true, List.length_replicate]
  refine ⟨trivial, ?_⟩
  intro x hx
  rcases List.mem_replicate.mp hx with ⟨-, rfl⟩
  rfl

/-! ## Structural lemmas: descent, insertion and leaf update -/

/-- After `insert_nodes`, descending the same key reaches a leaf (for a
well-formed tree and an in-range key). -/
theorem get_value_insert_nodes {V : Type} [Inhabited V] :
    ∀ (key : List Nat) (t : RNode V) (d : Nat), wf t d = true → key.length = d →
      (∀ x ∈ key, x < fanout) → key ≠ [] →
      ∃ vv, get_value (insert_nodes t key) key = some (.inr vv) := by
  intro key
  induction key with
  | nil => intro t d _ _ _ hne; exact absurd rfl hne
  | cons k rest ih =>
      intro t d hwf hlen hlt _
      match t, d with
      | .leaf _, d =>
          cases d with
          | zero => simp at hlen
          | succ d => simp [wf] at hwf
      | .node v cs, 0 => simp at hlen
      | .node v cs, d + 1 =>
          obtain ⟨hcslen, hall⟩ := wf_children hwf
          have hk : k < fanout := hlt k (List.mem_cons_self k rest)
          have hklen : k < cs.length := by omega
          match hc : cs.getD k none with
          | some child =>
              have hwfc : wf child d = true :=
                hall child (mem_of_getD_some cs k child hc)
              match rest with
              | [] =>
                  have hd : d = 0 := by simpa using hlen
                  subst hd
                  obtain ⟨vv, rfl⟩ := wf_leaf_zero hwfc
                  refine ⟨vv, ?_⟩
                  rw [in_hit_nil v cs k _ hc, gv_leaf v cs k vv hc]
              | r :: rs =>
                  have hlen' : (r :: rs).length = d := by simpa using hlen
                  have hlt' : ∀ x ∈ r :: rs, x < fanout :=
                    fun x hx => hlt x (List.mem_cons_of_mem k hx)
                  obtain ⟨vv, hvv⟩ := ih child d hwfc hlen' hlt' (by simp)
                  refine ⟨vv, ?_⟩
                  rw [in_hit_cons v cs k child r rs hc,
                    gv_cons v _ k _ r rs (getD_set_self cs k _ none hklen), hvv]
                  rfl
          | none =>
              match rest with
              | [] =>
                  refine ⟨⟨ver_insert_bit, default⟩, ?_⟩
                  rw [in_miss_nil v cs k hc,
                    gv_leaf _ _ k _ (getD_set_self cs k _ none hklen)]
              | r :: rs =>
                  have hlen' : (r :: rs).length = d := by simpa using hlen
                  have hlt' : ∀ x ∈ r :: rs, x < fanout :=
                    fun x hx => hlt x (List.mem_cons_of_mem k hx)
                  have hfresh : wf (RNode.node TransactionTid.increment_value
                      (List.replicate fanout (none : Option (RNode V)))) d = true := by
                    cases d with
                    | zero => simp at hlen'
                    | succ d' => exact wf_fresh d'
                  obtain ⟨vv, hvv⟩ := ih _ d hfresh hlen' hlt' (by simp)
                  refine ⟨vv, ?_⟩
                  rw [in_miss_cons v cs k r rs hc,
                    gv_cons _ _ k _ r rs (getD_set_self cs k _ none hklen), hvv]
                  rfl

/-- Updating the leaf at `key` is seen by a subsequent descent of `key`. -/
theorem get_value_updateLeaf_self {V : Type} (f : VersionedValue V → VersionedValue V) :
    ∀ (key : List Nat) (t : RNode V) (vv : VersionedValue V),
      get_value t key = some (.inr vv) →
      get_value (updateLeaf t key f) key = some (.inr (f vv)) := by
  intro key
  induction key with
  | nil => intro t vv h; rw [gv_nil] at h; exact Option.noConfusion h
  | cons k rest ih =>
      intro t vv h
      match t with
      | .leaf vv' => rw [gv_leafTree] at h; exact Option.noConfusion h
      | .node v cs =>
          match hc : cs.getD k none with
          | none => rw [gv_miss v cs k rest hc] at h; simp at h
          | some child =>
              have hklen : k < cs.length := lt_length_of_getD_some cs k child hc
              match rest with
              | [] =>
                  match child with
                  | .node v' cs' =>
                      rw [gv_nodeEnd v cs k v' cs' hc] at h
                      exact Option.noConfusion h
                  | .leaf vv' =>
                      rw [gv_leaf v cs k vv' hc] at h
                      have hvv : vv' = vv := by simpa using h
                      subst hvv
                      rw [ul_hit v cs k [] _ f hc, ul_leaf_nil,
                        gv_leaf v _ k (f vv') (getD_set_self cs k _ none hklen)]
              | r :: rs =>
                  rw [gv_cons v cs k child r rs hc] at h
                  obtain ⟨res, hres, hmap⟩ := Option.map_eq_some'.mp h
                  match res with
                  | .inl p => simp at hmap
                  | .inr vv' =>
                      have hvv : vv' = vv := by simpa using hmap
                      subst hvv
                      rw [ul_hit v cs k (r :: rs) child f hc,
                        gv_cons v _ k _ r rs (getD_set_self cs k _ none hklen),
                        ih child vv' hres]
                      rfl

/-- Updating the leaf at `key` does not change a descent of any other key. -/
theorem get_value_updateLeaf_ne {V : Type} (f : VersionedValue V → VersionedValue V) :
    ∀ (key key2 : List Nat) (t : RNode V), key2 ≠ key →
      get_value (updateLeaf t key f) key2 = get_value t key2 := by
  intro key
  induction key with
  | nil =>
      intro key2 t hne
      match t with
      | .leaf vv =>
          match key2 with
          | [] => exact absurd rfl hne
          | k2 :: r2 => rw [ul_leaf_nil, gv_leafTree, gv_leafTree]
      | .node v cs => rw [ul_node_nil]
  | cons k rest ih =>
      intro key2 t hne
      match t with
      | .leaf vv => rw [ul_leaf_cons]
      | .node v cs =>
          match hc : cs.getD k none with
          | none => rw [ul_miss v cs k rest f hc]
          | some child =>
              have hklen : k < cs.length := lt_length_of_getD_some cs k child hc
              rw [ul_hit v cs k rest child f hc]
              match key2 with
              | [] => rw [gv_nil, gv_nil]
              | k2 :: rest2 =>
                  by_cases hk2 : k2 = k
                  · subst hk2
                    have hrest : rest2 ≠ rest := by
                      intro hr; exact hne (by rw [hr])
                    match rest2 with
                    | [] =>
                        have hrne : rest ≠ [] := fun hr => hrest (by rw [hr])
                        match rest, child with
                        | [], _ => exact absurd rfl hrne
                        | r :: rs, .leaf vv' =>
                            rw [ul_leaf_cons,
                              gv_leaf v _ k2 vv' (getD_set_self cs k2 _ none hklen),
                              gv_leaf v cs k2 vv' hc]
                        | r :: rs, .node v' cs' =>
                            rw [gv_nodeEnd v cs k2 v' cs' hc]
                            rw [updateLeaf_eq]
                            match hc' : cs'.getD r none with
                            | some c' =>
                                exact gv_nodeEnd v _ k2 v' _
                                  (getD_set_self cs k2 _ none hklen)
                            | none =>
                                exact gv_nodeEnd v _ k2 v' _
                                  (getD_set_self cs k2 _ none hklen)
                    | r2 :: rs2 =>
                        rw [gv_cons v _ k2 _ r2 rs2 (getD_set_self cs k2 _ none hklen),
                          gv_cons v cs k2 child r2 rs2 hc, ih (r2 :: rs2) child hrest]
                  · have h1 := getD_set_ne cs k k2 (some (updateLeaf child rest f)) none
                      (fun h => hk2 h.symm)
                    rw [get_value_eq, h1, get_value_eq]

/-- Lemma: `updateLeaf` never changes any interior node's version word. -/
theorem nodeVersionAt_updateLeaf {V : Type} (f : VersionedValue V → VersionedValue V) :
    ∀ (key : List Nat) (t : RNode V) (p : List Nat),
      nodeVersionAt (updateLeaf t key f) p = nodeVersionAt t p := by
  intro key
  induction key with
  | nil =>
      intro t p
      match t with
      | .leaf vv => rw [ul_leaf_nil, nv_leaf, nv_leaf]
      | .node v cs => rw [ul_node_nil]
  | cons k rest ih =>
      intro t p
      match t with
      | .leaf vv => rw [ul_leaf_cons]
      | .node v cs =>
          match hc : cs.getD k none with
          | none => rw [ul_miss v cs k rest f hc]
          | some child =>
              have hklen : k < cs.length := lt_length_of_getD_some cs k child hc
              rw [ul_hit v cs k rest child f hc]
              match p with
              | [] => rw [nv_node_nil, nv_node_nil]
              | k2 :: p2 =>
                  by_cases hk2 : k2 = k
                  · subst hk2
                    rw [nv_hit v _ k2 p2 _ (getD_set_self cs k2 _ none hklen),
                      nv_hit v cs k2 p2 child hc, ih child p2]
                  · have h1 := getD_set_ne cs k k2 (some (updateLeaf child rest f)) none
                      (fun h => hk2 h.symm)
                    rw [nv_eq, h1, nv_eq]

/-- Lemma: `updateLeaf` preserves which paths hold a leaf (no allocation, no
reclamation). -/
theorem leafAt_isSome_updateLeaf {V : Type} (f : VersionedValue V → VersionedValue V) :
    ∀ (key : List Nat) (t : RNode V) (p : List Nat),
      (leafAt (updateLeaf t key f) p).isSome = (leafAt t p).isSome := by
  intro key
  induction key with
  | nil =>
      intro t p
      match t with
      | .leaf vv =>
          match p with
          | [] => rw [ul_leaf_nil, la_leaf_nil, la_leaf_nil]; rfl
          | k2 :: p2 => rw [ul_leaf_nil, la_leaf_cons, la_leaf_cons]
      | .node v cs => rw [ul_node_nil]
  | cons k rest ih =>
      intro t p
      match t with
      | .leaf vv => rw [ul_leaf_cons]
      | .node v cs =>
          match hc : cs.getD k none with
          | none => rw [ul_miss v cs k rest f hc]
          | some child =>
              have hklen : k < cs.length := lt_length_of_getD_some cs k child hc
              rw [ul_hit v cs k rest child f hc]
              match p with
              | [] => rw [la_node_nil, la_node_nil]
              | k2 :: p2 =>
                  by_cases hk2 : k2 = k
                  · subst hk2
                    have h1 := getD_set_self cs k2 (some (updateLeaf child rest f)) none hklen
                    rw [la_eq, h1, la_eq, hc]
                    exact ih child p2
                  · have h1 := getD_set_ne cs k k2 (some (updateLeaf child rest f)) none
                      (fun h => hk2 h.symm)
                    rw [la_eq, h1, la_eq]

/-- The phantom-witness lemma: if a descent of `key` missed at the interior
node reached by path `p`, then `insert_nodes key` bumps exactly that node's
version (locking it, adding `increment_value`, unlocking). -/
theorem insert_nodes_bumps {V : Type} [Inhabited V] :
    ∀ (key : List Nat) (t : RNode V) (p : List Nat),
      get_value t key = some (.inl p) →
      ∃ w, nodeVersionAt t p = some w ∧
        nodeVersionAt (insert_nodes t key) p = some (bump_ver w) := by
  intro key
  induction key with
  | nil => intro t p h; rw [gv_nil] at h; exact Option.noConfusion h
  | cons k rest ih =>
      intro t p h
      match t with
      | .leaf vv => rw [gv_leafTree] at h; exact Option.noConfusion h
      | .node v cs =>
          match hc : cs.getD k none with
          | none =>
              have hp : p = [] := by
                rw [gv_miss v cs k rest hc] at h
                simpa using h.symm
              subst hp
              refine ⟨v, rfl, ?_⟩
              match rest with
              | [] => rw [in_miss_nil v cs k hc, nv_node_nil]
              | r :: rs => rw [in_miss_cons v cs k r rs hc, nv_node_nil]
          | some child =>
              have hklen : k < cs.length := lt_length_of_getD_some cs k child hc
              match rest with
              | [] =>
                  match child with
                  | .leaf vv => rw [gv_leaf v cs k vv hc] at h; simp at h
                  | .node v' cs' =>
                      rw [gv_nodeEnd v cs k v' cs' hc] at h
                      exact Option.noConfusion h
              | r :: rs =>
                  rw [gv_cons v cs k child r rs hc] at h
                  obtain ⟨res, hres, hmap⟩ := Option.map_eq_some'.mp h
                  match res with
                  | .inr vv => simp at hmap
                  | .inl p' =>
                      have hp : p = k :: p' := by simpa using hmap.symm
                      subst hp
                      obtain ⟨w, hw1, hw2⟩ := ih child p' hres
                      refine ⟨w, ?_, ?_⟩
                      · rw [nv_hit v cs k p' child hc]; exact hw1
                      · rw [in_hit_cons v cs k child r rs hc,
                          nv_hit v _ k p' _ (getD_set_self cs k _ none hklen)]
                        exact hw2

/-! ## The key transformer: big-endian nibbles and order preservation -/

theorem mod_pow_div_mod (k i n : Nat) (h : i < n) :
    k % 16 ^ n / 16 ^ i % 16 = k / 16 ^ i % 16 := by
  have hk : k = 16 ^ i * (16 ^ (n - i) * (k / 16 ^ n)) + k % 16 ^ n := by
    rw [← Nat.mul_assoc, ← pow_add]
    have he : i + (n - i) = n := by omega
    rw [he]
    exact (Nat.div_add_mod k (16 ^ n)).symm
  conv_rhs => rw [hk]
  rw [Nat.mul_add_div (Nat.pos_pow_of_pos i (by norm_num))]
  have h16 : 16 ^ (n - i) * (k / 16 ^ n) = 16 * (16 ^ (n - i - 1) * (k / 16 ^ n)) := by
    rw [← Nat.mul_assoc]
    congr 1
    rw [← pow_succ']
    congr 1
    omega
  rw [h16, Nat.mul_add_mod]

theorem transform_eq_digitsBE :
    ∀ (n k : Nat), k < 16 ^ n →
      (List.range n).map (fun j => k / 16 ^ (n - 1 - j) % 16) = digitsBE n k := by
  intro n
  induction n with
  | zero => intro k _; rfl
  | succ n ih =>
      intro k hk
      rw [List.range_succ_eq_map, List.map_cons, List.map_map, digitsBE]
      have hhead : k / 16 ^ (n + 1 - 1 - 0) % 16 = k / 16 ^ n := by
        have hlt : k / 16 ^ n < 16 :=
          Nat.div_lt_of_lt_mul (by rw [← pow_succ]; exact hk)
        simpa using Nat.mod_eq_of_lt hlt
      rw [hhead]
      congr 1
      have htail := ih (k % 16 ^ n) (Nat.mod_lt _ (Nat.pos_pow_of_pos n (by norm_num)))
      rw [← htail]
      apply List.map_congr_left
      intro j hj
      have hj' : j < n := List.mem_range.mp hj
      simp only [Function.comp]
      have harg : n + 1 - 1 - (j + 1) = n - 1 - j := by omega
      rw [harg, (mod_pow_div_mod k (n - 1 - j) n (by omega)).symm]

theorem transform_eq (k : Nat) (hk : k < wordMod) : transform k = digitsBE 16 k := by
  have h16 : (16 : Nat) ^ 16 = wordMod := by norm_num [wordMod]
  have := transform_eq_digitsBE 16 k (by omega)
  simpa [transform, buf_size] using this

/-- Strictly ordered keys give strictly lexicographically ordered digit
sequences (digits compared most significant first). -/
theorem digitsBE_lex :
    ∀ (n a b : Nat), a < b → b < 16 ^ n →
      List.Lex (· < ·) (digitsBE n a) (digitsBE n b) := by
  intro n
  induction n with
  | zero => intro a b hab hb; omega
  | succ n ih =>
      intro a b hab hb
      have hpow : 0 < (16 : Nat) ^ n := Nat.pos_pow_of_pos n (by norm_num)
      have hdivle : a / 16 ^ n ≤ b / 16 ^ n := Nat.div_le_div_right (Nat.le_of_lt hab)
      rcases Nat.lt_or_ge (a / 16 ^ n) (b / 16 ^ n) with hlt | hge
      · exact List.Lex.rel hlt
      · have heq : a / 16 ^ n = b / 16 ^ n := Nat.le_antisymm hdivle hge
        have hmod : a % 16 ^ n < b % 16 ^ n := by
          have ha' := Nat.div_add_mod a (16 ^ n)
          have hb' := Nat.div_add_mod b (16 ^ n)
          rw [heq] at ha'
          omega
        rw [digitsBE, digitsBE, heq]
        exact List.Lex.cons (ih _ _ hmod (Nat.mod_lt _ hpow))

theorem transform_length (k : Nat) : (transform k).length = buf_size := by
  simp [transform]

theorem transform_mem_lt (k : Nat) : ∀ x ∈ transform k, x < fanout := by
  intro x hx
  simp only [transform, List.mem_map] at hx
  obtain ⟨j, -, rfl⟩ := hx
  exact Nat.mod_lt _ (by norm_num)

theorem transform_ne_nil (k : Nat) : transform k ≠ [] := by
  intro h
  have := transform_length k
  rw [h] at this
  simp [buf_size] at this

theorem transform_getD (k i : Nat) (hi : i < buf_size) :
    (transform k).getD i 0 = k / 2 ^ (4 * (buf_size - 1 - i)) % 16 := by
  have hpow : (2 : Nat) ^ (4 * (buf_size - 1 - i)) = 16 ^ (buf_size - 1 - i) := by
    rw [Nat.pow_mul]
  rw [hpow]
  simp only [transform, List.getD_eq_getElem?_getD, List.getElem?_map, List.getElem?_range, hi]
  rfl

/-! ## Transaction-table lemmas -/

theorem txFind_txUpsert {V : Type} :
    ∀ (tx : TxState V) (k : ItemKey) (d : ItemData V), txFind (txUpsert tx k d) k = some d := by
  intro tx k d
  induction tx with
  | nil => simp [txUpsert, txFind]
  | cons e rest ih =>
      by_cases he : e.1 = k
      · simp [txUpsert, he, txFind]
      · simp only [txUpsert, he, if_false, txFind, ih]

theorem stoItem_txUpsert {V : Type} (tx : TxState V) (k : ItemKey) (d : ItemData V) :
    stoItem (txUpsert tx k d) k = d := by
  simp [stoItem, txFind_txUpsert]

/-! ## Version words over the leaf lifetime -/

theorem commit_put_ver (x : Nat) (fr fe : Bool) :
    TransactionTid.unlock (install_ver (TransactionTid.lock x) ⟨true, fr, fe⟩) = put_ver x := rfl

theorem commit_remove_ver (x : Nat) (fe : Bool) :
    TransactionTid.unlock (install_ver (TransactionTid.lock x) ⟨false, true, fe⟩) =
      remove_ver x := rfl

theorem commit_plain_ver (x : Nat) (fe : Bool) :
    TransactionTid.unlock (install_ver (TransactionTid.lock x) ⟨false, false, fe⟩) =
      bump_ver x := rfl

theorem bump_ver_insert (x : Nat) :
    hasBit (bump_ver x) ver_insert_bit = hasBit x ver_insert_bit := by
  simp only [bump_ver, hasBit, orBit, clearBit, TransactionTid.lock, TransactionTid.unlock,
    TransactionTid.increment_value, TransactionTid.lock_bit, ver_insert_bit,
    TransactionTid.user_bit1, wordMod, Nat.reducePow, decide_eq_decide]
  split_ifs <;> omega

theorem bump_ver_valid (x : Nat) :
    hasBit (bump_ver x) TransactionTid.valid_bit = hasBit x TransactionTid.valid_bit := by
  simp only [bump_ver, hasBit, orBit, clearBit, TransactionTid.lock, TransactionTid.unlock,
    TransactionTid.increment_value, TransactionTid.lock_bit, TransactionTid.valid_bit,
    wordMod, Nat.reducePow, decide_eq_decide]
  split_ifs <;> omega

theorem leafStep_no_insert_valid {V : Type} [Inhabited V] (vv : VersionedValue V) (op : LeafOp V)
    (h : ¬(hasBit vv.version ver_insert_bit = true ∧
        hasBit vv.version TransactionTid.valid_bit = true)) :
    ¬(hasBit (leafStep vv op).version ver_insert_bit = true ∧
      hasBit (leafStep vv op).version TransactionTid.valid_bit = true) := by
  cases op with
  | putOp v =>
      have hv : (leafStep vv (.putOp v)).version = put_ver vv.version := rfl
      rw [hv, put_ver_insert]
      simp
  | removeOp =>
      have hv : (leafStep vv .removeOp).version = remove_ver vv.version := rfl
      rw [hv, remove_ver_insert]
      simp
  | commitOp fl w =>
      rcases fl with ⟨fp, fr, fe⟩
      cases fp with
      | true =>
          have hv : (leafStep vv (.commitOp ⟨true, fr, fe⟩ w)).version = put_ver vv.version := rfl
          rw [hv, put_ver_insert]
          simp
      | false =>
          cases fr with
          | true =>
              have hv : (leafStep vv (.commitOp ⟨false, true, fe⟩ w)).version =
                  remove_ver vv.version := rfl
              rw [hv, remove_ver_insert]
              simp
          | false =>
              have hv : (leafStep vv (.commitOp ⟨false, false, fe⟩ w)).version =
                  bump_ver vv.version := rfl
              rw [hv, bump_ver_insert, bump_ver_valid]
              exact h

/-- C7: leaf state-machine invariant.  Starting from the leaf `insert_nodes`
creates (version = the insert bit only), no sequence of put, remove and
commit-callback (`lock`; `install`; `unlock`) operations ever produces a
version word with the insert bit and the valid bit simultaneously set: the
`(insert = 1, valid = 1)` combination is unreachable. -/
theorem C7_leaf_state_machine {V : Type} [Inhabited V] (ops : List (LeafOp V)) :
    ¬(hasBit (List.foldl leafStep (newLeaf V) ops).version ver_insert_bit = true ∧
      hasBit (List.foldl leafStep (newLeaf V) ops).version TransactionTid.valid_bit = true) := by
  have main : ∀ (l : List (LeafOp V)) (vv : VersionedValue V),
      ¬(hasBit vv.version ver_insert_bit = true ∧
        hasBit vv.version TransactionTid.valid_bit = true) →
      ¬(hasBit (List.foldl leafStep vv l).version ver_insert_bit = true ∧
        hasBit (List.foldl leafStep vv l).version TransactionTid.valid_bit = true) := by
    intro l
    induction l with
    | nil => intro vv h; exact h
    | cons op rest ih =>
        intro vv h
        exact ih (leafStep vv op) (leafStep_no_insert_valid vv op h)
  have hstart : ¬(hasBit (newLeaf V).version ver_insert_bit = true ∧
      hasBit (newLeaf V).version TransactionTid.valid_bit = true) := by
    intro hcon
    simp [newLeaf, hasBit, ver_insert_bit, TransactionTid.user_bit1,
      TransactionTid.valid_bit] at hcon
  exact main ops (newLeaf V) hstart

/-- C8, counterexample: the version word is 64-bit, so an update at old
version `2 ^ 64 - 8` wraps around and produces a strictly smaller version
(ignoring the lock bit), refuting "the version word never decreases" at that
input (a non-transactional `put` update is shown; the old version is the one
reached after `2 ^ 61 - 1` removes of an inserted leaf). -/
theorem C8_counterexample :
    put_ver (wordMod - 8) / 2 < (wordMod - 8) / 2 := by
  norm_num [put_ver, orBit, clearBit, TransactionTid.lock, TransactionTid.unlock,
    TransactionTid.increment_value, TransactionTid.valid_bit, ver_insert_bit,
    TransactionTid.user_bit1, TransactionTid.lock_bit, wordMod]

set_option maxHeartbeats 1000000 in
/-- C8, amended: provided the update does not overflow the 64-bit version
word (`old + increment_value < 2 ^ 64`), every update — non-transactional
`put`, non-transactional `remove`, and a commit (`lock`; `install` with any
item flags; `unlock`) — produces a version greater than or equal to the old
version when the lock bit is ignored. -/
theorem C8_version_monotonic (w : Nat) (fl : ItemFlags)
    (hw : w + TransactionTid.increment_value < wordMod) :
    w / 2 ≤ put_ver w / 2 ∧ w / 2 ≤ remove_ver w / 2 ∧
      w / 2 ≤ TransactionTid.unlock (install_ver (TransactionTid.lock w) fl) / 2 := by
  rcases fl with ⟨fp, fr, fe⟩
  simp only [TransactionTid.increment_value, wordMod, Nat.reducePow] at hw
  refine ⟨?_, ?_, ?_⟩
  · simp only [put_ver, orBit, clearBit, TransactionTid.lock, TransactionTid.unlock,
      TransactionTid.increment_value, TransactionTid.valid_bit, ver_insert_bit,
      TransactionTid.user_bit1, TransactionTid.lock_bit, wordMod, Nat.reducePow]
    split_ifs <;> omega
  · simp only [remove_ver, orBit, clearBit, TransactionTid.lock, TransactionTid.unlock,
      TransactionTid.increment_value, TransactionTid.valid_bit, ver_insert_bit,
      TransactionTid.user_bit1, TransactionTid.lock_bit, wordMod, Nat.reducePow]
    split_ifs <;> omega
  · cases fp with
    | true =>
        rw [commit_put_ver]
        simp only [put_ver, orBit, clearBit, TransactionTid.lock, TransactionTid.unlock,
          TransactionTid.increment_value, TransactionTid.valid_bit, ver_insert_bit,
          TransactionTid.user_bit1, TransactionTid.lock_bit, wordMod, Nat.reducePow]
        split_ifs <;> omega
    | false =>
        cases fr with
        | true =>
            rw [commit_remove_ver]
            simp only [remove_ver, orBit, clearBit, TransactionTid.lock, TransactionTid.unlock,
              TransactionTid.increment_value, TransactionTid.valid_bit, ver_insert_bit,
              TransactionTid.user_bit1, TransactionTid.lock_bit, wordMod, Nat.reducePow]
            split_ifs <;> omega
        | false =>
            rw [commit_plain_ver]
            simp only [bump_ver, orBit, clearBit, TransactionTid.lock, TransactionTid.unlock,
              TransactionTid.increment_value, TransactionTid.lock_bit, wordMod, Nat.reducePow]
            split_ifs <;> omega

/-- Witness for C8's amended theorem at a concrete input. -/
theorem C8_version_monotonic_witness :
    8 / 2 ≤ put_ver 8 / 2 ∧ 8 / 2 ≤ remove_ver 8 / 2 ∧
      8 / 2 ≤ TransactionTid.unlock
        (install_ver (TransactionTid.lock 8) ⟨false, false, false⟩) / 2 :=
  C8_version_monotonic 8 ⟨false, false, false⟩ (by decide)

/-- C2: non-transactional round-trip.  For every 64-bit key and value, with
no concurrent writer, `put(k, v)` followed by `get(k, &x)` returns true and
yields `x == v`. -/
theorem C2_round_trip {V : Type} [Inhabited V] (t : RNode V) (k : Nat) (v : V)
    (hwf : wf t 16 = true) (hk : k < wordMod) :
    get (put t (transform k) v) (transform k) = some v := by
  have hlen : (transform k).length = 16 := by
    simpa [buf_size] using transform_length k
  obtain ⟨vv, hvv⟩ :=
    get_value_insert_nodes (transform k) t 16 hwf hlen (transform_mem_lt k) (transform_ne_nil k)
  have h2 := get_value_updateLeaf_self (fun vv0 => putLeaf vv0 v) (transform k) _ vv hvv
  simp only [put, get]
  rw [h2]
  simp [putLeaf, put_ver_valid, atomic_read]

/-- Witness for C2 at a concrete tree, key and value. -/
theorem C2_round_trip_witness :
    get (put (emptyTree Nat) (transform 5) 7) (transform 5) = some 7 :=
  C2_round_trip (emptyTree Nat) 5 7 (by decide) (by decide)

/-- C4: install callback semantics.  `install` writes back
`old + increment_value` (64-bit) as the new version; with `item_put_bit` the
new version additionally has the valid bit set and the insert bit cleared
and the staged payload is written into the value cell; with
`item_remove_bit` (and no put bit) both the valid and insert bits are
cleared and the payload is untouched; with neither flag the version is
exactly the incremented word.  In all cases the increment field is that of
`old + increment_value` and the lock bit is preserved. -/
theorem C4_install_semantics {V : Type} [Inhabited V] (vv : VersionedValue V) (d : ItemData V) :
    (∀ v0 : V, d.flags.put = true → d.write = some (.inl v0) →
        (install vv d).value = v0 ∧
        hasBit (install vv d).version TransactionTid.valid_bit = true ∧
        hasBit (install vv d).version ver_insert_bit = false ∧
        (install vv d).version / TransactionTid.increment_value
          = ((vv.version + TransactionTid.increment_value) % wordMod)
            / TransactionTid.increment_value ∧
        (install vv d).version % 2 = vv.version % 2) ∧
    (d.flags.put = false → d.flags.rm = true →
        (install vv d).value = vv.value ∧
        hasBit (install vv d).version TransactionTid.valid_bit = false ∧
        hasBit (install vv d).version ver_insert_bit = false ∧
        (install vv d).version / TransactionTid.increment_value
          = ((vv.version + TransactionTid.increment_value) % wordMod)
            / TransactionTid.increment_value ∧
        (install vv d).version % 2 = vv.version % 2) ∧
    (d.flags.put = false → d.flags.rm = false →
        install vv d = ⟨(vv.version + TransactionTid.increment_value) % wordMod, vv.value⟩) := by
  refine ⟨?_, ?_, ?_⟩
  · intro v0 hp hwv
    refine ⟨by simp [install, hp, writeValueV, hwv], ?_, ?_, ?_, ?_⟩ <;>
      (simp only [install, install_ver, hp, if_true, hasBit, orBit, clearBit,
        TransactionTid.valid_bit, ver_insert_bit, TransactionTid.user_bit1,
        TransactionTid.increment_value, wordMod, Nat.reducePow, decide_eq_true_eq,
        decide_eq_false_iff_not]) <;>
      (split_ifs <;> omega)
  · intro hp hr
    refine ⟨by simp [install, hp], ?_, ?_, ?_, ?_⟩ <;>
      (simp only [install, install_ver, hp, hr, Bool.false_eq_true, if_false, if_true, hasBit,
        orBit, clearBit, TransactionTid.valid_bit, ver_insert_bit, TransactionTid.user_bit1,
        TransactionTid.increment_value, wordMod, Nat.reducePow, decide_eq_true_eq,
        decide_eq_false_iff_not]) <;>
      (split_ifs <;> omega)
  · intro hp hr
    simp [install, install_ver, hp, hr]

/-- Witness for C4's put case at a concrete leaf and item. -/
theorem C4_install_semantics_witness :
    (install ⟨0, 0⟩ (⟨⟨true, false, false⟩, none, some (.inl 5)⟩ : ItemData Nat)).value = 5 ∧
    hasBit (install ⟨0, 0⟩ (⟨⟨true, false, false⟩, none,
      some (.inl 5)⟩ : ItemData Nat)).version TransactionTid.valid_bit = true ∧
    hasBit (install ⟨0, 0⟩ (⟨⟨true, false, false⟩, none,
      some (.inl 5)⟩ : ItemData Nat)).version ver_insert_bit = false ∧
    (install ⟨0, 0⟩ (⟨⟨true, false, false⟩, none,
      some (.inl 5)⟩ : ItemData Nat)).version / TransactionTid.increment_value
      = ((0 + TransactionTid.increment_value) % wordMod) / TransactionTid.increment_value ∧
    (install ⟨0, 0⟩ (⟨⟨true, false, false⟩, none,
      some (.inl 5)⟩ : ItemData Nat)).version % 2 = 0 % 2 :=
  (C4_install_semantics ⟨0, 0⟩ ⟨⟨true, false, false⟩, none, some (.inl 5)⟩).1 5 rfl rfl

/-- C6: the canonical 64-bit key transformer emits 16 nibbles, each in
`[0, 16)`, most-significant 4-bit group first, and strictly smaller keys
give strictly lexicographically smaller nibble sequences. -/
theorem C6_transformer_order (a b : Nat) (hab : a < b) (hb : b < wordMod) :
    buf_size = 16 ∧
    (transform a).length = 16 ∧
    (∀ x ∈ transform a, x < 16) ∧
    (∀ i, i < 16 → (transform a).getD i 0 = a / 2 ^ (4 * (15 - i)) % 16) ∧
    List.Lex (· < ·) (transform a) (transform b) := by
  refine ⟨rfl, ?_, ?_, ?_, ?_⟩
  · simpa [buf_size] using transform_length a
  · simpa [fanout] using transform_mem_lt a
  · intro i hi
    have hi' : i < buf_size := by simpa [buf_size] using hi
    have h := transform_getD a i hi'
    have hbs : buf_size - 1 - i = 15 - i := by simp [buf_size]
    rw [hbs] at h
    exact h
  · have h16 : (16 : Nat) ^ 16 = wordMod := by norm_num [wordMod]
    rw [transform_eq a (by omega), transform_eq b hb]
    exact digitsBE_lex 16 a b hab (by omega)

/-- Witness for C6 at a concrete pair of keys. -/
theorem C6_transformer_order_witness :
    buf_size = 16 ∧
    (transform 3).length = 16 ∧
    (∀ x ∈ transform 3, x < 16) ∧
    (∀ i, i < 16 → (transform 3).getD i 0 = 3 / 2 ^ (4 * (15 - i)) % 16) ∧
    List.Lex (· < ·) (transform 3) (transform 12) :=
  C6_transformer_order 3 12 (by decide) (by decide)

/-- C9: remove idempotence.  A second `remove(k)` changes no `get`
observation over the whole key space relative to one `remove(k)`; after
either, `get(k)` returns false; and no memory is reclaimed — every leaf and
interior node of the original tree is still in place (and no new ones
appear) after one or two removes. -/
theorem C9_remove_idempotent {V : Type} (t : RNode V) (k : Nat) :
    (∀ key2 : List Nat,
        get (remove (remove t (transform k)) (transform k)) key2
          = get (remove t (transform k)) key2) ∧
    get (remove t (transform k)) (transform k) = none ∧
    (∀ p : List Nat, (leafAt (remove t (transform k)) p).isSome = (leafAt t p).isSome) ∧
    (∀ p : List Nat, nodeVersionAt (remove t (transform k)) p = nodeVersionAt t p) ∧
    (∀ p : List Nat,
        (leafAt (remove (remove t (transform k)) (transform k)) p).isSome
          = (leafAt t p).isSome) := by
  match hgv : get_value t (transform k) with
  | none =>
      have ht1 : remove t (transform k) = t := by simp only [remove, hgv]
      rw [ht1, ht1]
      exact ⟨fun _ => rfl, by simp only [get, hgv], fun _ => rfl, fun _ => rfl, fun _ => rfl⟩
  | some (.inl p) =>
      have ht1 : remove t (transform k) = t := by simp only [remove, hgv]
      rw [ht1, ht1]
      exact ⟨fun _ => rfl, by simp only [get, hgv], fun _ => rfl, fun _ => rfl, fun _ => rfl⟩
  | some (.inr vv) =>
      have ht1 : remove t (transform k) = updateLeaf t (transform k) removeLeaf := by
        simp only [remove, hgv]
      have h1 : get_value (updateLeaf t (transform k) removeLeaf) (transform k)
          = some (.inr (removeLeaf vv)) :=
        get_value_updateLeaf_self removeLeaf (transform k) t vv hgv
      have ht2 : remove (updateLeaf t (transform k) removeLeaf) (transform k)
          = updateLeaf (updateLeaf t (transform k) removeLeaf) (transform k) removeLeaf := by
        simp only [remove, h1]
      have h2 : get_value (updateLeaf (updateLeaf t (transform k) removeLeaf)
            (transform k) removeLeaf) (transform k)
          = some (.inr (removeLeaf (removeLeaf vv))) :=
        get_value_updateLeaf_self removeLeaf (transform k) _ (removeLeaf vv) h1
      have hget1 : get (updateLeaf t (transform k) removeLeaf) (transform k) = none := by
        simp only [get, h1, removeLeaf, remove_ver_valid]
        simp
      refine ⟨?_, ?_, ?_, ?_, ?_⟩
      · intro key2
        rw [ht1, ht2]
        by_cases hk2 : key2 = transform k
        · subst hk2
          rw [hget1]
          simp only [get, h2, removeLeaf, remove_ver_valid]
          simp
        · simp only [get, get_value_updateLeaf_ne removeLeaf (transform k) key2 _ hk2]
      · rw [ht1]; exact hget1
      · intro p; rw [ht1]; exact leafAt_isSome_updateLeaf removeLeaf (transform k) t p
      · intro p; rw [ht1]; exact nodeVersionAt_updateLeaf removeLeaf (transform k) t p
      · intro p
        rw [ht1, ht2]
        rw [leafAt_isSome_updateLeaf removeLeaf (transform k) _ p]
        exact leafAt_isSome_updateLeaf removeLeaf (transform k) t p

/-- C3: transactional observed-own-writes.  Within one transaction,
`trans_put(k, v)` followed by `trans_get(k, &x)` returns true and yields
`x == v` — the staged write of the same transaction's item is returned. -/
theorem C3_observed_own_writes {V : Type} [Inhabited V] (t : RNode V) (tx : TxState V)
    (k : Nat) (v : V) (hwf : wf t 16 = true) :
    (trans_get (trans_put t tx (transform k) v).1 (trans_put t tx (transform k) v).2
      (transform k)).2 = .ok true (some (.inl v)) := by
  have hlen : (transform k).length = 16 := by simpa [buf_size] using transform_length k
  obtain ⟨vv, hvv⟩ :=
    get_value_insert_nodes (transform k) t 16 hwf hlen (transform_mem_lt k) (transform_ne_nil k)
  simp only [trans_put, trans_get]
  rw [hvv, stoItem_txUpsert]

/-- Witness for C3 at a concrete tree, transaction, key and value. -/
theorem C3_observed_own_writes_witness :
    (trans_get (trans_put (emptyTree Nat) (emptyTx Nat) (transform 2) 9).1
      (trans_put (emptyTree Nat) (emptyTx Nat) (transform 2) 9).2
      (transform 2)).2 = .ok true (some (.inl 9)) :=
  C3_observed_own_writes (emptyTree Nat) (emptyTx Nat) 2 9 (by decide)

/-- C5: `trans_get` read validation.  For a key whose leaf exists and whose
item has no staged write: if the item already recorded a read and the
current version differs from it modulo the lock bit, the transaction aborts;
otherwise the snapshot version is recorded into the item's read set and the
call returns true exactly when the valid bit of that snapshot version is
set (the out-parameter receiving the atomically read payload). -/
theorem C5_trans_get_validation {V : Type} (t : RNode V) (tx : TxState V) (key : List Nat)
    (vv : VersionedValue V) (hleaf : get_value t key = some (.inr vv))
    (hnw : (stoItem tx (.leafKey key)).write = none) :
    ((stoItem tx (.leafKey key)).read.isSome = true →
      TransactionTid.same_version ((stoItem tx (.leafKey key)).read.getD 0) vv.version
        = false →
      trans_get t tx key = (tx, .abort)) ∧
    ((stoItem tx (.leafKey key)).read.isSome = true →
      TransactionTid.same_version ((stoItem tx (.leafKey key)).read.getD 0) vv.version
        = true →
      trans_get t tx key =
        (txUpsert tx (.leafKey key) { stoItem tx (.leafKey key) with read := some vv.version },
         .ok (hasBit vv.version TransactionTid.valid_bit) (some (.inl vv.value))) ∧
      (stoItem (trans_get t tx key).1 (.leafKey key)).read = some vv.version) ∧
    ((stoItem tx (.leafKey key)).read.isSome = false →
      trans_get t tx key =
        (txUpsert tx (.leafKey key) { stoItem tx (.leafKey key) with read := some vv.version },
         .ok (hasBit vv.version TransactionTid.valid_bit) (some (.inl vv.value))) ∧
      (stoItem (trans_get t tx key).1 (.leafKey key)).read = some vv.version) := by
  refine ⟨?_, ?_, ?_⟩
  · intro h1 h2
    simp only [trans_get]
    rw [hleaf, hnw]
    simp [h1, h2]
  · intro h1 h2
    have htg : trans_get t tx key =
        (txUpsert tx (.leafKey key) { stoItem tx (.leafKey key) with read := some vv.version },
         .ok (hasBit vv.version TransactionTid.valid_bit) (some (.inl vv.value))) := by
      simp only [trans_get]
      rw [hleaf, hnw]
      simp [h1, h2, atomic_read]
    refine ⟨htg, ?_⟩
    rw [htg]
    simp [stoItem_txUpsert]
  · intro h1
    have htg : trans_get t tx key =
        (txUpsert tx (.leafKey key) { stoItem tx (.leafKey key) with read := some vv.version },
         .ok (hasBit vv.version TransactionTid.valid_bit) (some (.inl vv.value))) := by
      simp only [trans_get]
      rw [hleaf, hnw]
      simp [h1, atomic_read]
    refine ⟨htg, ?_⟩
    rw [htg]
    simp [stoItem_txUpsert]

/-- Witness for C5's fresh-read case at a concrete tree and key. -/
theorem C5_trans_get_validation_witness :
    trans_get (put (emptyTree Nat) (transform 0) 5) (emptyTx Nat) (transform 0) =
      (txUpsert (emptyTx Nat) (.leafKey (transform 0))
        { stoItem (emptyTx Nat) (.leafKey (transform 0)) with read := some 10 },
       .ok true (some (.inl 5))) ∧
    (stoItem (trans_get (put (emptyTree Nat) (transform 0) 5) (emptyTx Nat)
      (transform 0)).1 (.leafKey (transform 0))).read = some 10 :=
  (C5_trans_get_validation (put (emptyTree Nat) (transform 0) 5) (emptyTx Nat)
    (transform 0) ⟨10, 5⟩ (by decide) (by decide)).2.2 (by decide)

/-- C10: within one transaction, `trans_remove(k)` on an existing leaf
followed by `trans_get(k, &x)` returns true, not false: `trans_get` sees the
item's staged write and hands back the staged remove marker as the payload,
so a key removed earlier in the same transaction is still reported as
present. -/
theorem C10_remove_then_get {V : Type} (t : RNode V) (tx : TxState V) (key : List Nat)
    (vv : VersionedValue V) (hleaf : get_value t key = some (.inr vv)) :
    (trans_get t (trans_remove t tx key) key).2 = .ok true (some (.inr true)) := by
  simp only [trans_remove, trans_get]
  rw [hleaf, stoItem_txUpsert]

/-- Witness for C10 at a concrete tree and key. -/
theorem C10_remove_then_get_witness :
    (trans_get (put (emptyTree Nat) (transform 0) 5)
      (trans_remove (put (emptyTree Nat) (transform 0) 5) (emptyTx Nat) (transform 0))
      (transform 0)).2 = .ok true (some (.inr true)) :=
  C10_remove_then_get (put (emptyTree Nat) (transform 0) 5) (emptyTx Nat)
    (transform 0) ⟨10, 5⟩ (by decide)

/-- C1: absent-read phantom guard.  If a transaction's `trans_get(k)` (or
`trans_remove(k)`) missed at an interior node — returning not-found and
recording that node's version in an item flagged `item_empty_bit` — and a
concurrent `trans_put(k, _)` then commits (its `insert_nodes` publishes the
missing children, bumping that node's version under its lock, and its commit
installs the leaf), the first transaction's `check` on the `empty_bit` item
returns false, so it must abort. -/
theorem C1_phantom_guard {V : Type} [Inhabited V] (t : RNode V) (tx : TxState V)
    (k : Nat) (v : V) (p : List Nat)
    (hmiss : get_value t (transform k) = some (.inl p)) :
    (trans_get t tx (transform k)).2 = .ok false none ∧
    ∃ w, nodeVersionAt t p = some w ∧
      (stoItem (trans_get t tx (transform k)).1 (.nodeKey p)).flags.empty = true ∧
      (stoItem (trans_get t tx (transform k)).1 (.nodeKey p)).read = some w ∧
      check (commit_put t (transform k) v) (.nodeKey p)
        (stoItem (trans_get t tx (transform k)).1 (.nodeKey p)) = false ∧
      (stoItem (trans_remove t tx (transform k)) (.nodeKey p)).flags.empty = true ∧
      (stoItem (trans_remove t tx (transform k)) (.nodeKey p)).read = some w ∧
      check (commit_put t (transform k) v) (.nodeKey p)
        (stoItem (trans_remove t tx (transform k)) (.nodeKey p)) = false := by
  obtain ⟨w, hw1, hw2⟩ := insert_nodes_bumps (transform k) t p hmiss
  have hnv : nodeVersionAt (commit_put t (transform k) v) p = some (bump_ver w) := by
    simp only [commit_put]
    rw [nodeVersionAt_updateLeaf]
    exact hw2
  have hitem : (stoItem (trans_get t tx (transform k)).1 (.nodeKey p))
      = { stoItem tx (.nodeKey p) with
            read := some ((nodeVersionAt t p).getD 0),
            flags := { (stoItem tx (.nodeKey p)).flags with empty := true } } := by
    simp only [trans_get]
    rw [hmiss]
    exact stoItem_txUpsert tx (.nodeKey p) _
  have hitem2 : (stoItem (trans_remove t tx (transform k)) (.nodeKey p))
      = { stoItem tx (.nodeKey p) with
            read := some ((nodeVersionAt t p).getD 0),
            flags := { (stoItem tx (.nodeKey p)).flags with empty := true } } := by
    simp only [trans_remove]
    rw [hmiss]
    exact stoItem_txUpsert tx (.nodeKey p) _
  have hret : (trans_get t tx (transform k)).2 = .ok false none := by
    simp only [trans_get]
    rw [hmiss]
  refine ⟨hret, w, hw1, ?_, ?_, ?_, ?_, ?_, ?_⟩
  · rw [hitem]
  · rw [hitem, hw1]; rfl
  · rw [hitem]
    simp only [check, hnv, hw1]
    simp [bump_ver_not_same]
  · rw [hitem2]
  · rw [hitem2, hw1]; rfl
  · rw [hitem2]
    simp only [check, hnv, hw1]
    simp [bump_ver_not_same]

/-- Witness for C1 at the empty tree: the miss happens at the root. -/
theorem C1_phantom_guard_witness :
    (trans_get (emptyTree Nat) (emptyTx Nat) (transform 0)).2 = .ok false none ∧
    ∃ w, nodeVersionAt (emptyTree Nat) [] = some w ∧
      (stoItem (trans_get (emptyTree Nat) (emptyTx Nat) (transform 0)).1
        (.nodeKey [])).flags.empty = true ∧
      (stoItem (trans_get (emptyTree Nat) (emptyTx Nat) (transform 0)).1
        (.nodeKey [])).read = some w ∧
      check (commit_put (emptyTree Nat) (transform 0) 7) (.nodeKey [])
        (stoItem (trans_get (emptyTree Nat) (emptyTx Nat) (transform 0)).1
          (.nodeKey [])) = false ∧
      (stoItem (trans_remove (emptyTree Nat) (emptyTx Nat) (transform 0))
        (.nodeKey [])).flags.empty = true ∧
      (stoItem (trans_remove (emptyTree Nat) (emptyTx Nat) (transform 0))
        (.nodeKey [])).read = some w ∧
      check (commit_put (emptyTree Nat) (transform 0) 7) (.nodeKey [])
        (stoItem (trans_remove (emptyTree Nat) (emptyTx Nat) (transform 0))
          (.nodeKey [])) = false :=
  C1_phantom_guard (emptyTree Nat) (emptyTx Nat) 0 7 [] (by decide)

end RadixSpec
